import Mathlib

/-!
Shallow embedding of simpleperf's `cmd_api.cpp` (the `api-prepare` and
`api-collect` command handlers) and proofs about it.

Strings are modelled as `List Char`, file bytes as `List Nat`, machine
integers as `Nat` with explicit `2 ^ 64` / `2 ^ 32` bounds where overflow
matters.  Fallible OS interactions (property writes, subprocess runs, zip
library calls) are modelled by explicit boolean outcome fields in "world"
records, and the handlers return success flags together with event traces.
-/

namespace Simpleperf

/-! ## Character classes of the uid-resolution regex

`PrepareCommand::GetAppUid` matches lines of `pm list packages -U` output
against the ECMAScript regex `package:([\w\.]+)\s+uid:(\d+)`.
`\w` is `[A-Za-z0-9_]`, `\s` the ASCII whitespace class. -/

def wordChar (c : Char) : Bool :=
  c.isAlphanum || c == '_'

def nameChar (c : Char) : Bool :=
  wordChar c || c == '.'

def spaceChar (c : Char) : Bool :=
  c == ' ' || c == '\t' || c == '\n' || c == '\r' || c == '\x0b' || c == '\x0c'

/-- Drop a literal from the front of a string, failing if it is not there. -/
def dropLit? : List Char → List Char → Option (List Char)
  | [], s => some s
  | _ :: _, [] => none
  | c :: p, d :: s => if c = d then dropLit? p s else none

/-- Split off the maximal run of characters satisfying `f`.  This is the
behaviour of a greedy `X+` in the regex when the character class `X` is
disjoint from whatever must follow it (true for all three classes used by
the uid regex), so backtracking never shortens the run. -/
def takeRun (f : Char → Bool) : List Char → List Char × List Char
  | [] => ([], [])
  | c :: s =>
    if f c then
      let r := takeRun f s
      (c :: r.1, r.2)
    else ([], c :: s)

def pkgLit : List Char := ['p', 'a', 'c', 'k', 'a', 'g', 'e', ':']

def uidLit : List Char := ['u', 'i', 'd', ':']

/-- One attempted regex match anchored at the start of `s`: literal
`package:`, a nonempty run of `[\w\.]`, a nonempty run of `\s`, literal
`uid:`, a nonempty run of `\d`.  Returns the two capture groups and the
remainder of the string after the match. -/
def matchAt (s : List Char) : Option ((List Char × List Char) × List Char) :=
  (dropLit? pkgLit s).bind fun s1 =>
    if (takeRun nameChar s1).1 = [] then none
    else if (takeRun spaceChar (takeRun nameChar s1).2).1 = [] then none
    else
      (dropLit? uidLit (takeRun spaceChar (takeRun nameChar s1).2).2).bind fun s4 =>
        if (takeRun Char.isDigit s4).1 = [] then none
        else some (((takeRun nameChar s1).1, (takeRun Char.isDigit s4).1),
                   (takeRun Char.isDigit s4).2)

/-- Leftmost scan of `std::sregex_iterator`: try a match at each position,
restart after the end of every successful match.  The fuel argument is the
string length, which bounds the number of steps. -/
def scanAux : Nat → List Char → List (List Char × List Char)
  | _, [] => []
  | 0, _ :: _ => []
  | f + 1, c :: s =>
    match matchAt (c :: s) with
    | some ((n, u), rest) => (n, u) :: scanAux f rest
    | none => scanAux f s

def scanMatches (s : List Char) : List (List Char × List Char) :=
  scanAux s.length s

/-- Decimal value of a digit string, as `android::base::ParseUint` computes
it before its range check. -/
def parseUintDec (u : List Char) : Nat :=
  u.foldl (fun a c => a * 10 + (c.toNat - 48)) 0

/-- The loop body of `GetAppUid`: walk the regex matches in order; a uid
that does not fit `uint32_t` makes `ParseUint` fail and the match is
skipped; otherwise the first match whose package name equals the requested
application name wins. -/
def findUid : List (List Char × List Char) → List Char → Option Nat
  | [], _ => none
  | (n, u) :: rest, app =>
    if 4294967296 ≤ parseUintDec u then findUid rest app
    else if n = app then some (parseUintDec u)
    else findUid rest app

/-- `PrepareCommand::GetAppUid`, given the text produced by
`pm list packages -U`. -/
def getAppUid (content app : List Char) : Option Nat :=
  findUid (scanMatches content) app

/-! ## Expiration arithmetic of `PrepareCommand::Run`

`__builtin_mul_overflow(days_, 24 * 3600, &duration_in_sec)` and
`__builtin_add_overflow(time(nullptr), duration_in_sec, &expiration_time)`
over `uint64_t`, saturating to `UINT64_MAX` when either overflows. -/

def UINT64_MAX : Nat := 2 ^ 64 - 1

def computeExpiration (days now : Nat) : Nat :=
  if 2 ^ 64 ≤ days * (24 * 3600) then UINT64_MAX
  else if 2 ^ 64 ≤ now + days * (24 * 3600) then UINT64_MAX
  else now + days * (24 * 3600)

/-! ## `PrepareCommand::Run`

The handler's OS interactions are recorded as an event trace; each fallible
collaborator's outcome is a field of `PrepareWorld`. -/

def uidPropKey : List Char := "persist.simpleperf.profile_app_uid".data

def expirationPropKey : List Char := "persist.simpleperf.profile_app_expiration_time".data

inductive PrepEvent where
  | resolveUid (res : Option Nat)
  | setProp (key : List Char) (value : Nat) (ok : Bool)
  | checkPerfLimit (ok : Bool)
  | writeTracepoints (ok : Bool)
deriving DecidableEq

structure PrepareWorld where
  androidVersion : Nat
  now : Nat
  pmOk : Bool
  pmContent : List Char
  setUidPropOk : Bool
  setExpirationPropOk : Bool
  perfEventLimitOk : Bool
  writeTracepointsOk : Bool
deriving DecidableEq

/-- `GetAppUid` including the `popen("pm list packages -U")`/read step:
when the subprocess fails, resolution fails. -/
def getAppUidRun (w : PrepareWorld) (app : List Char) : Option Nat :=
  if w.pmOk then getAppUid w.pmContent app else none

/-- `PrepareCommand::Run` after successful option parsing, with `app` the
parsed `--app` value (empty when absent) and `days` the parsed `--days`
value (0 when absent).  Returns the success flag and the ordered trace of
OS interactions. -/
def prepareRun (w : PrepareWorld) (app : List Char) (days : Nat) : Bool × List PrepEvent :=
  if 13 ≤ w.androidVersion ∧ app ≠ [] ∧ days ≠ 0 then
    match getAppUidRun w app with
    | none => (false, [.resolveUid none])
    | some uid =>
      if w.setUidPropOk = false then
        (false, [.resolveUid (some uid), .setProp uidPropKey uid false])
      else if w.setExpirationPropOk = false then
        (false, [.resolveUid (some uid), .setProp uidPropKey uid true,
                 .setProp expirationPropKey (computeExpiration days w.now) false])
      else
        (w.writeTracepointsOk,
         [.resolveUid (some uid), .setProp uidPropKey uid true,
          .setProp expirationPropKey (computeExpiration days w.now) true,
          .writeTracepoints w.writeTracepointsOk])
  else
    if w.perfEventLimitOk = false then (false, [.checkPerfLimit false])
    else (w.writeTracepointsOk, [.checkPerfLimit true, .writeTracepoints w.writeTracepointsOk])

/-- The property key attempted by an event, if the event is a property
write. -/
def propKeyOf : PrepEvent → Option (List Char)
  | .setProp k _ _ => some k
  | _ => none

/-! ## `CollectCommand`

Directory entries carry the per-entry `IsRegularFile` answer and the file
bytes; the zip library is modelled by a state of finished entries plus the
currently open entry, and each fallible call's outcome is a field of
`CollectEnv`. -/

structure DirEntry where
  name : List Char
  isRegular : Bool
  content : List Nat
deriving DecidableEq

def temporaryPat : List Char := "TemporaryFile-".data

/-- `android::base::StartsWith`. -/
def startsWithPat (pat s : List Char) : Bool :=
  (dropLit? pat s).isSome

/-- Read buffer size: `64 * 1024` bytes. -/
def bufSize : Nat := 64 * 1024

/-- The read loop: successive `read` calls return `bufSize`-byte chunks
until the file is exhausted.  Fuel is the content length, which bounds the
number of nonempty chunks. -/
def readChunksAux : Nat → List Nat → List (List Nat)
  | _, [] => []
  | 0, _ :: _ => []
  | f + 1, b :: l => (b :: l).take bufSize :: readChunksAux f ((b :: l).drop bufSize)

def readChunks (l : List Nat) : List (List Nat) :=
  readChunksAux l.length l

structure ZipState where
  entries : List (List Char × List Nat)
  cur : Option (List Char × List Nat)
  finished : Bool
deriving DecidableEq

def zipInit : ZipState := ⟨[], none, false⟩

def zipStartEntry (name : List Char) (z : ZipState) : ZipState :=
  { z with cur := some (name, []) }

def zipWriteBytes (b : List Nat) (z : ZipState) : ZipState :=
  match z.cur with
  | some (n, d) => { z with cur := some (n, d ++ b) }
  | none => z

def zipFinishEntry (z : ZipState) : ZipState :=
  match z.cur with
  | some e => { entries := z.entries ++ [e], cur := none, finished := z.finished }
  | none => z

def zipFinish (z : ZipState) : ZipState :=
  { z with finished := true }

structure CollectEnv where
  fdopenOk : Bool
  startEntryOk : Bool
  openOk : Bool
  readOk : Bool
  writeBytesOk : Bool
  finishEntryOk : Bool
  finishOk : Bool
deriving DecidableEq

/-- The inner read/`WriteBytes` loop over one file's chunks. -/
def writeChunks (env : CollectEnv) : List (List Nat) → ZipState → Option ZipState
  | [], z => some z
  | c :: rest, z =>
    if env.writeBytesOk then writeChunks env rest (zipWriteBytes c z) else none

/-- The filter of `CollectRecordingData`: keep regular files whose name
does not start with the temporary-file pattern. -/
def keepEntry (e : DirEntry) : Bool :=
  !startsWithPat temporaryPat e.name && e.isRegular

/-- The per-entry loop of `CollectRecordingData`. -/
def collectEntries (env : CollectEnv) : List DirEntry → ZipState → Option ZipState
  | [], z => some z
  | e :: rest, z =>
    if startsWithPat temporaryPat e.name || !e.isRegular then collectEntries env rest z
    else if env.startEntryOk = false then none
    else if env.openOk = false then none
    else if env.readOk = false then none
    else
      match writeChunks env (readChunks e.content) (zipStartEntry e.name z) with
      | none => none
      | some z1 =>
        if env.finishEntryOk = false then none
        else collectEntries env rest (zipFinishEntry z1)

/-- `CollectCommand::CollectRecordingData`: `fdopen` the output descriptor,
archive every eligible directory entry, finish the zip stream.  `some z`
is success with final zip state `z`; `none` is failure at any stage. -/
def collectRecordingData (env : CollectEnv) (dir : List DirEntry) : Option ZipState :=
  if env.fdopenOk = false then none
  else
    match collectEntries env dir zipInit with
    | none => none
    | some z => if env.finishOk = false then none else some (zipFinish z)

/-- The option values as pulled out of the preprocessed option map in
`CollectCommand::ParseOptions`. -/
structure CollectOptions where
  app : Option (List Char)
  inApp : Bool
  outputPath : Option (List Char)
  outFd : Option Nat
  stopSignalFd : Option Nat
deriving DecidableEq

structure CollectParsed where
  appName : List Char
  outputFilepath : List Char
  inAppContext : Bool
deriving DecidableEq

/-- `CollectCommand::ParseOptions` after preprocessing: fails exactly when
not in app context and no application name was supplied. -/
def parseCollectOptions (opts : CollectOptions) : Option CollectParsed :=
  let appName := opts.app.getD []
  let outputFilepath := (opts.outputPath).getD "simpleperf_data.zip".data
  if opts.inApp = false ∧ appName = [] then none
  else some ⟨appName, outputFilepath, opts.inApp⟩

structure CollectWorld where
  env : CollectEnv
  dir : List DirEntry
  dirExists : Bool
  rmOk : Bool
  runInAppContextOk : Bool
deriving DecidableEq

/-- Observable outcome of one `CollectCommand::Run` invocation. -/
structure CollectTrace where
  ranInAppContext : Bool
  removeAttempted : Bool
  dirExistsAfter : Bool
  archive : Option ZipState
deriving DecidableEq

/-- `CollectCommand::Run`: parse, then either collect-and-remove in app
context or delegate to `RunInAppContext`.  `RemoveRecordingData` runs
`rm -rf` on the data directory and is attempted only when
`CollectRecordingData` succeeded. -/
def collectCommandRun (opts : CollectOptions) (w : CollectWorld) : Bool × CollectTrace :=
  match parseCollectOptions opts with
  | none => (false, ⟨false, false, w.dirExists, none⟩)
  | some p =>
    if p.inAppContext then
      match collectRecordingData w.env w.dir with
      | none => (false, ⟨false, false, w.dirExists, none⟩)
      | some z =>
        (w.rmOk, ⟨false, true, if w.rmOk then false else w.dirExists, some z⟩)
    else
      (w.runInAppContextOk, ⟨true, false, w.dirExists, none⟩)

/-! ## Abstract package listings

`pm list packages -U` output is a sequence of `package:NAME uid:UID` lines.
`renderListing` renders an abstract listing to the text `GetAppUid` scans;
`specResolve` is the spec-side reference resolver. -/

def renderListing : List (List Char × List Char) → List Char
  | [] => []
  | (n, u) :: rest =>
    pkgLit ++ (n ++ (' ' :: (uidLit ++ (u ++ ('\n' :: renderListing rest)))))

/-- A well-formed listing entry: nonempty package name over `[\w\.]`,
nonempty decimal uid string whose value fits `uint32_t`. -/
abbrev WFEntry (e : List Char × List Char) : Prop :=
  e.1 ≠ [] ∧ (∀ c ∈ e.1, nameChar c = true) ∧ e.2 ≠ [] ∧
  (∀ c ∈ e.2, Char.isDigit c = true) ∧ parseUintDec e.2 < 4294967296

/-- Modelled from the spec's words: "resolution must find an exact name
match among listed packages; otherwise it is absent" and "the first exact
name match wins".  Reference resolver over the abstract listing, to be
compared with `getAppUid` over the rendered text. -/
def specResolve : List (List Char × List Char) → List Char → Option Nat
  | [], _ => none
  | (n, u) :: rest, app =>
    if n = app then some (parseUintDec u) else specResolve rest app

/-! ## Concrete example inputs used by witness theorems -/

def demoPmContent : List Char :=
  ['p', 'a', 'c', 'k', 'a', 'g', 'e', ':', 'a', ' ', 'u', 'i', 'd', ':', '5', '\n']

def demoPrepWorld : PrepareWorld := ⟨13, 100, true, demoPmContent, true, true, true, true⟩

def demoPrepWorldLow : PrepareWorld := ⟨12, 0, true, [], true, true, true, true⟩

def demoPrepWorldNoPm : PrepareWorld := ⟨13, 0, false, [], true, true, true, true⟩

def demoCollectOpts : CollectOptions := ⟨some ['a'], true, none, some 3, none⟩

def demoOuterOpts : CollectOptions := ⟨none, false, none, none, none⟩

def demoCollectWorld : CollectWorld :=
  ⟨⟨true, true, true, true, true, true, true⟩, [], true, true, true⟩

def demoListing : List (List Char × List Char) :=
  [(['a'], ['9']), (['b', 'b'], ['1', '2'])]

def demoApp : List Char := ['b', 'b']

def demoHyphenContent : List Char :=
  ['p', 'a', 'c', 'k', 'a', 'g', 'e', ':', 'f', 'o', 'o', '-', 'b', 'a', 'r',
   ' ', 'u', 'i', 'd', ':', '1', '2', '3', '\n']

def demoHyphenApp : List Char := ['f', 'o', 'o', '-', 'b', 'a', 'r']

def demoAllOkEnv : CollectEnv := ⟨true, true, true, true, true, true, true⟩

def demoPerf : DirEntry :=
  ⟨['p', 'e', 'r', 'f', '.', 'd', 'a', 't', 'a'], true, [97, 98, 99]⟩

def demoTemp : DirEntry :=
  ⟨['T', 'e', 'm', 'p', 'o', 'r', 'a', 'r', 'y', 'F', 'i', 'l', 'e', '-', '4', '2'],
   true, [0]⟩

def demoDir : List DirEntry := [demoPerf, demoTemp]

def demoZip : ZipState := ⟨[(demoPerf.name, [97, 98, 99])], none, true⟩

/-! ## Claims about `PrepareCommand` control flow and arithmetic -/

/-- Claim C2: for every day count `d` and current time `t` (as 64-bit
values), the computed expiration equals `t + d * 86400` when that value is
representable in 64 bits, and equals the `UINT64_MAX` sentinel whenever the
multiplication or the addition would overflow — never a wrapped-around
small value. -/
theorem c2_expiration_saturates (d t : Nat) (hd : d < 2 ^ 64) (ht : t < 2 ^ 64) :
    (t + d * 86400 < 2 ^ 64 → computeExpiration d t = t + d * 86400) ∧
    (2 ^ 64 ≤ t + d * 86400 → computeExpiration d t = UINT64_MAX) := by
  unfold computeExpiration UINT64_MAX
  simp only [show (24 * 3600 : Nat) = 86400 by norm_num]
  constructor <;> intro h <;> split_ifs <;> omega

theorem c2_witness :
    (3 : Nat) < 2 ^ 64 ∧ (1000 : Nat) < 2 ^ 64 ∧ 1000 + 3 * 86400 < 2 ^ 64 ∧
    computeExpiration 3 1000 = 1000 + 3 * 86400 :=
  ⟨by norm_num, by norm_num, by norm_num,
   (c2_expiration_saturates 3 1000 (by norm_num) (by norm_num)).1 (by norm_num)⟩

/-- Claim C6: on a host OS version below 13, `api-prepare` always takes the
transient-grant branch — the trace starts with the global perf-event-limit
check and contains no property write — regardless of the `--days` and
`--app` values. -/
theorem c6_low_version_transient (w : PrepareWorld) (app : List Char) (days : Nat)
    (h : w.androidVersion < 13) :
    ((prepareRun w app days).2.head? = some (.checkPerfLimit w.perfEventLimitOk)) ∧
    ∀ k v b, PrepEvent.setProp k v b ∉ (prepareRun w app days).2 := by
  unfold prepareRun
  rw [if_neg (fun hc => absurd hc.1 (by omega))]
  cases hp : w.perfEventLimitOk <;> simp [hp]

theorem c6_witness :
    demoPrepWorldLow.androidVersion < 13 ∧
    ((prepareRun demoPrepWorldLow ['a'] 5).2.head? =
      some (.checkPerfLimit demoPrepWorldLow.perfEventLimitOk)) ∧
    ∀ k v b, PrepEvent.setProp k v b ∉ (prepareRun demoPrepWorldLow ['a'] 5).2 :=
  ⟨by decide, (c6_low_version_transient demoPrepWorldLow ['a'] 5 (by decide)).1,
   (c6_low_version_transient demoPrepWorldLow ['a'] 5 (by decide)).2⟩

/-- Claim C8: in the durable-grant branch, the attempted property writes
are the uid key first and the expiration key second (the expiration write
is attempted only after the uid write), and if either write fails the
invocation returns failure without writing the tracepoint definitions
file. -/
theorem c8_property_write_order (w : PrepareWorld) (app : List Char) (days : Nat)
    (hv : 13 ≤ w.androidVersion) (ha : app ≠ []) (hd : days ≠ 0)
    (uid : Nat) (hu : getAppUidRun w app = some uid) :
    ((prepareRun w app days).2.filterMap propKeyOf =
      if w.setUidPropOk then [uidPropKey, expirationPropKey] else [uidPropKey]) ∧
    ((w.setUidPropOk = false ∨ w.setExpirationPropOk = false) →
      (prepareRun w app days).1 = false ∧
      ∀ b, PrepEvent.writeTracepoints b ∉ (prepareRun w app days).2) := by
  unfold prepareRun
  rw [if_pos ⟨hv, ha, hd⟩, hu]
  cases h1 : w.setUidPropOk <;> cases h2 : w.setExpirationPropOk <;>
    simp [h1, h2, propKeyOf]

theorem c8_witness :
    13 ≤ demoPrepWorld.androidVersion ∧ (['a'] : List Char) ≠ [] ∧ (5 : Nat) ≠ 0 ∧
    getAppUidRun demoPrepWorld ['a'] = some 5 ∧
    ((prepareRun demoPrepWorld ['a'] 5).2.filterMap propKeyOf =
      if demoPrepWorld.setUidPropOk then [uidPropKey, expirationPropKey] else [uidPropKey]) :=
  ⟨by decide, by decide, by decide, by decide,
   (c8_property_write_order demoPrepWorld ['a'] 5 (by decide) (by decide) (by decide)
     5 (by decide)).1⟩

/-- Claim C10: in the durable-grant branch, uid resolution is the first
OS interaction — it precedes any property write — and if resolution fails
the invocation returns failure with a trace containing no property write
at all (neither property is modified). -/
theorem c10_resolution_precedes_writes (w : PrepareWorld) (app : List Char) (days : Nat)
    (hv : 13 ≤ w.androidVersion) (ha : app ≠ []) (hd : days ≠ 0) :
    ((prepareRun w app days).2.head? = some (.resolveUid (getAppUidRun w app))) ∧
    (getAppUidRun w app = none → prepareRun w app days = (false, [.resolveUid none])) := by
  unfold prepareRun
  rw [if_pos ⟨hv, ha, hd⟩]
  cases hu : getAppUidRun w app with
  | none => simp
  | some uid =>
    cases h1 : w.setUidPropOk <;> cases h2 : w.setExpirationPropOk <;> simp [h1, h2]

theorem c10_witness :
    13 ≤ demoPrepWorldNoPm.androidVersion ∧ (['a'] : List Char) ≠ [] ∧ (5 : Nat) ≠ 0 ∧
    getAppUidRun demoPrepWorldNoPm ['a'] = none ∧
    prepareRun demoPrepWorldNoPm ['a'] 5 = (false, [.resolveUid none]) :=
  ⟨by decide, by decide, by decide, by decide,
   (c10_resolution_precedes_writes demoPrepWorldNoPm ['a'] 5 (by decide) (by decide)
     (by decide)).2 (by decide)⟩

/-! ## Claims about `CollectCommand` control flow -/

/-- Claim C5: in inner mode, a successful run implies the removal step ran
and the data directory no longer exists; if `CollectRecordingData` fails,
the run returns failure without attempting removal, leaving the directory
untouched. -/
theorem c5_cleanup (opts : CollectOptions) (w : CollectWorld) (hin : opts.inApp = true) :
    ((collectCommandRun opts w).1 = true →
      (collectCommandRun opts w).2.removeAttempted = true ∧
      (collectCommandRun opts w).2.dirExistsAfter = false) ∧
    (collectRecordingData w.env w.dir = none →
      (collectCommandRun opts w).1 = false ∧
      (collectCommandRun opts w).2.removeAttempted = false ∧
      (collectCommandRun opts w).2.dirExistsAfter = w.dirExists) := by
  unfold collectCommandRun parseCollectOptions
  rw [hin]
  cases hc : collectRecordingData w.env w.dir with
  | none => simp
  | some z => cases hr : w.rmOk <;> simp [hr]

theorem c5_witness :
    demoCollectOpts.inApp = true ∧
    (collectCommandRun demoCollectOpts demoCollectWorld).1 = true ∧
    (collectCommandRun demoCollectOpts demoCollectWorld).2.removeAttempted = true ∧
    (collectCommandRun demoCollectOpts demoCollectWorld).2.dirExistsAfter = false :=
  ⟨rfl, by decide,
   ((c5_cleanup demoCollectOpts demoCollectWorld rfl).1 (by decide)).1,
   ((c5_cleanup demoCollectOpts demoCollectWorld rfl).1 (by decide)).2⟩

/-- Claim C7: an `api-collect` invocation without `--in-app` and without
`--app` fails option parsing, the command returns failure, and no context
switch (no `RunInAppContext` call) is performed. -/
theorem c7_outer_without_app (opts : CollectOptions) (w : CollectWorld)
    (hin : opts.inApp = false) (happ : opts.app = none) :
    parseCollectOptions opts = none ∧
    collectCommandRun opts w = (false, ⟨false, false, w.dirExists, none⟩) := by
  have hp : parseCollectOptions opts = none := by
    simp [parseCollectOptions, hin, happ]
  exact ⟨hp, by unfold collectCommandRun; rw [hp]⟩

theorem c7_witness :
    demoOuterOpts.inApp = false ∧ demoOuterOpts.app = none ∧
    parseCollectOptions demoOuterOpts = none ∧
    collectCommandRun demoOuterOpts demoCollectWorld =
      (false, ⟨false, false, demoCollectWorld.dirExists, none⟩) :=
  ⟨rfl, rfl, (c7_outer_without_app demoOuterOpts demoCollectWorld rfl rfl).1,
   (c7_outer_without_app demoOuterOpts demoCollectWorld rfl rfl).2⟩

/-! ## Scanner lemmas for `GetAppUid` -/

theorem dropLit?_append (p s : List Char) : dropLit? p (p ++ s) = some s := by
  induction p with
  | nil => rfl
  | cons c p ih => simp [dropLit?, ih]

theorem dropLit?_length : ∀ {p s r : List Char},
    dropLit? p s = some r → r.length + p.length = s.length := by
  intro p
  induction p with
  | nil =>
    intro s r h
    simp [dropLit?] at h
    subst h
    simp
  | cons c p ih =>
    intro s r h
    cases s with
    | nil => simp [dropLit?] at h
    | cons d s =>
      unfold dropLit? at h
      split_ifs at h
      have := ih h
      simp at this ⊢
      omega

theorem takeRun_append (f : Char → Bool) (s : List Char) :
    (takeRun f s).1 ++ (takeRun f s).2 = s := by
  induction s with
  | nil => rfl
  | cons c s ih => cases h : f c <;> simp [takeRun, h, ih]

theorem takeRun_fst_all (f : Char → Bool) (s : List Char) :
    ∀ c ∈ (takeRun f s).1, f c = true := by
  induction s with
  | nil => simp [takeRun]
  | cons c s ih =>
    cases h : f c with
    | false => simp [takeRun, h]
    | true =>
      simp only [takeRun, h, if_true]
      intro a ha
      rcases List.mem_cons.mp ha with rfl | ha'
      · exact h
      · exact ih a ha'

theorem takeRun_append_not (f : Char → Bool) (xs : List Char) (c : Char) (ys : List Char)
    (hxs : ∀ a ∈ xs, f a = true) (hc : f c = false) :
    takeRun f (xs ++ c :: ys) = (xs, c :: ys) := by
  induction xs with
  | nil => simp [takeRun, hc]
  | cons x xs ih =>
    have hx : f x = true := hxs x (by simp)
    simp [takeRun, hx, ih (fun a ha => hxs a (by simp [ha]))]

theorem takeRun_snd_length (f : Char → Bool) (s : List Char) :
    (takeRun f s).2.length ≤ s.length := by
  have := congrArg List.length (takeRun_append f s)
  simp at this
  omega

theorem matchAt_some {s n u r : List Char} (h : matchAt s = some ((n, u), r)) :
    (∀ c ∈ n, nameChar c = true) ∧ (∀ c ∈ u, Char.isDigit c = true) ∧
    r.length < s.length := by
  unfold matchAt at h
  cases h1 : dropLit? pkgLit s with
  | none => rw [h1, Option.none_bind] at h; cases h
  | some s1 =>
    rw [h1, Option.some_bind] at h
    split_ifs at h with hn hw
    cases h2 : dropLit? uidLit (takeRun spaceChar (takeRun nameChar s1).2).2 with
    | none => rw [h2, Option.none_bind] at h; cases h
    | some s4 =>
      rw [h2, Option.some_bind] at h
      split_ifs at h with hd
      simp only [Option.some.injEq, Prod.mk.injEq] at h
      obtain ⟨⟨hn', hu'⟩, hr'⟩ := h
      subst hn'; subst hu'; subst hr'
      refine ⟨takeRun_fst_all _ _, takeRun_fst_all _ _, ?_⟩
      have e1 := dropLit?_length h1
      have e2 := dropLit?_length h2
      have l1 := takeRun_snd_length nameChar s1
      have l2 := takeRun_snd_length spaceChar (takeRun nameChar s1).2
      have l3 := takeRun_snd_length Char.isDigit s4
      have hp : pkgLit.length = 8 := rfl
      have hu4 : uidLit.length = 4 := rfl
      omega

theorem scanAux_congr : ∀ (f g : Nat) (s : List Char), s.length ≤ f → s.length ≤ g →
    scanAux f s = scanAux g s := by
  intro f
  induction f with
  | zero =>
    intro g s hf _
    have hs : s = [] := List.eq_nil_of_length_eq_zero (by omega)
    subst hs
    cases g <;> rfl
  | succ f ih =>
    intro g s hf hg
    cases s with
    | nil => cases g <;> rfl
    | cons c t =>
      cases g with
      | zero => simp at hg
      | succ g =>
        unfold scanAux
        cases hm : matchAt (c :: t) with
        | none =>
          exact ih g t (by simp at hf; omega) (by simp at hg; omega)
        | some q =>
          obtain ⟨⟨n, u⟩, r⟩ := q
          have hr := (matchAt_some hm).2.2
          simp at hf hg hr
          show (n, u) :: scanAux f r = (n, u) :: scanAux g r
          rw [ih g r (by omega) (by omega)]

theorem scanMatches_nil : scanMatches [] = [] := rfl

theorem scanMatches_cons_some {c : Char} {s n u r : List Char}
    (h : matchAt (c :: s) = some ((n, u), r)) :
    scanMatches (c :: s) = (n, u) :: scanMatches r := by
  have hr : r.length < s.length + 1 := by
    have := (matchAt_some h).2.2
    simpa using this
  unfold scanMatches
  simp only [List.length_cons]
  simp only [scanAux, h]
  rw [scanAux_congr s.length r.length r (by omega) le_rfl]

theorem scanMatches_cons_none {c : Char} {s : List Char}
    (h : matchAt (c :: s) = none) :
    scanMatches (c :: s) = scanMatches s := by
  unfold scanMatches
  simp only [List.length_cons]
  simp only [scanAux, h]

theorem matchAt_nil : matchAt [] = none := rfl

theorem scanMatches_some {s n u r : List Char} (h : matchAt s = some ((n, u), r)) :
    scanMatches s = (n, u) :: scanMatches r := by
  cases s with
  | nil => rw [matchAt_nil] at h; cases h
  | cons c t => exact scanMatches_cons_some h

/-- Every package name produced by the scan consists of `[\w\.]`
characters: the regex accepts nothing else in its first capture group. -/
theorem scanMatches_name_chars : ∀ (k : Nat) (s : List Char), s.length ≤ k →
    ∀ p ∈ scanMatches s, ∀ c ∈ p.1, nameChar c = true := by
  intro k
  induction k with
  | zero =>
    intro s hs p hp
    have : s = [] := List.eq_nil_of_length_eq_zero (by omega)
    subst this
    simp [scanMatches_nil] at hp
  | succ k ih =>
    intro s hs p hp c hc
    cases s with
    | nil => simp [scanMatches_nil] at hp
    | cons a t =>
      cases hm : matchAt (a :: t) with
      | none =>
        rw [scanMatches_cons_none hm] at hp
        exact ih t (by simp at hs; omega) p hp c hc
      | some q =>
        obtain ⟨⟨n, u⟩, r⟩ := q
        rw [scanMatches_some hm] at hp
        rcases List.mem_cons.mp hp with rfl | hp'
        · exact (matchAt_some hm).1 c hc
        · have hr := (matchAt_some hm).2.2
          simp at hs hr
          exact ih r (by omega) p hp' c hc

theorem findUid_none (ms : List (List Char × List Char)) (app : List Char)
    (h : ∀ p ∈ ms, p.1 ≠ app) : findUid ms app = none := by
  induction ms with
  | nil => rfl
  | cons p rest ih =>
    obtain ⟨n, u⟩ := p
    have hn : n ≠ app := h (n, u) (by simp)
    have hrest := ih (fun q hq => h q (by simp [hq]))
    simp [findUid, hn, hrest]

theorem matchAt_not_p {c : Char} {s : List Char} (h : c ≠ 'p') :
    matchAt (c :: s) = none := by
  unfold matchAt
  have hd : dropLit? pkgLit (c :: s) = none := by
    show dropLit? ('p' :: ['a', 'c', 'k', 'a', 'g', 'e', ':']) (c :: s) = none
    unfold dropLit?
    rw [if_neg (fun hh => h hh.symm)]
  rw [hd, Option.none_bind]

theorem takeRun_space_uid (Y : List Char) :
    takeRun spaceChar (' ' :: (uidLit ++ Y)) = ([' '], uidLit ++ Y) := by
  have h1 : spaceChar ' ' = true := by decide
  have h2 : spaceChar 'u' = false := by decide
  show takeRun spaceChar (' ' :: ('u' :: (['i', 'd', ':'] ++ Y))) =
    ([' '], 'u' :: (['i', 'd', ':'] ++ Y))
  simp [takeRun, h1, h2]

theorem matchAt_render (n u rest : List Char)
    (hn : n ≠ []) (hnc : ∀ c ∈ n, nameChar c = true)
    (hu : u ≠ []) (hud : ∀ c ∈ u, Char.isDigit c = true) :
    matchAt (pkgLit ++ (n ++ (' ' :: (uidLit ++ (u ++ ('\n' :: rest)))))) =
      some ((n, u), '\n' :: rest) := by
  unfold matchAt
  rw [dropLit?_append, Option.some_bind]
  rw [takeRun_append_not nameChar n ' ' (uidLit ++ (u ++ ('\n' :: rest))) hnc (by decide)]
  dsimp only
  rw [if_neg hn]
  rw [takeRun_space_uid (u ++ ('\n' :: rest))]
  dsimp only
  rw [if_neg (by simp : ¬([' '] : List Char) = [])]
  rw [dropLit?_append, Option.some_bind]
  rw [takeRun_append_not Char.isDigit u '\n' rest hud (by decide)]
  dsimp only
  rw [if_neg hu]

theorem scanMatches_render : ∀ (l : List (List Char × List Char)),
    (∀ e ∈ l, WFEntry e) → scanMatches (renderListing l) = l := by
  intro l
  induction l with
  | nil => intro; rfl
  | cons e rest ih =>
    intro hWF
    obtain ⟨n, u⟩ := e
    obtain ⟨hn, hnc, hu, hud, -⟩ := hWF (n, u) (by simp)
    have hrender : renderListing ((n, u) :: rest) =
        pkgLit ++ (n ++ (' ' :: (uidLit ++ (u ++ ('\n' :: renderListing rest))))) := rfl
    rw [hrender,
        scanMatches_some (matchAt_render n u (renderListing rest) hn hnc hu hud),
        scanMatches_cons_none (matchAt_not_p (by decide)),
        ih (fun e he => hWF e (by simp [he]))]

theorem findUid_eq_spec : ∀ (l : List (List Char × List Char)) (app : List Char),
    (∀ e ∈ l, parseUintDec e.2 < 4294967296) → findUid l app = specResolve l app := by
  intro l
  induction l with
  | nil => intro app _; rfl
  | cons e rest ih =>
    intro app h
    obtain ⟨n, u⟩ := e
    have hu : parseUintDec u < 4294967296 := h (n, u) (by simp)
    have hrest := ih app (fun q hq => h q (by simp [hq]))
    by_cases hn : n = app <;>
      simp [findUid, specResolve, Nat.not_le.mpr hu, hn, hrest]

/-- Claim C3: for every well-formed package listing, resolving a name over
the rendered `package:NAME uid:UID` lines behaves exactly like the
reference resolver over the abstract listing — the first exact name match
wins and its uid value is returned, and a name that matches no entry
resolves to `none` (not a crash or a default uid). -/
theorem c3_uid_resolution (l : List (List Char × List Char)) (app : List Char)
    (hWF : ∀ e ∈ l, WFEntry e) :
    getAppUid (renderListing l) app = specResolve l app := by
  unfold getAppUid
  rw [scanMatches_render l hWF]
  exact findUid_eq_spec l app (fun e he => (hWF e he).2.2.2.2)

theorem c3_witness :
    (∀ e ∈ demoListing, WFEntry e) ∧
    getAppUid (renderListing demoListing) demoApp = specResolve demoListing demoApp :=
  ⟨by decide, c3_uid_resolution demoListing demoApp (by decide)⟩

/-- Claim C9: the uid-resolution regex accepts only package names made of
word characters and dots, so an application name containing any other
character (for example a hyphen) resolves to not-found against every
listing text, even one containing a matching `package:NAME uid:UID`
line. -/
theorem c9_nonword_name_not_found (content app : List Char) (c : Char)
    (hc : c ∈ app) (hnc : nameChar c = false) :
    getAppUid content app = none := by
  unfold getAppUid
  apply findUid_none
  intro p hp heq
  have hall := scanMatches_name_chars content.length content le_rfl p hp c (heq ▸ hc)
  rw [hnc] at hall
  cases hall

theorem c9_witness :
    ('-' ∈ demoHyphenApp) ∧ nameChar '-' = false ∧
    getAppUid demoHyphenContent demoHyphenApp = none :=
  ⟨by decide, by decide,
   c9_nonword_name_not_found demoHyphenContent demoHyphenApp '-' (by decide) (by decide)⟩

/-! ## Archive characterization for `CollectRecordingData` -/

theorem readChunksAux_flatten : ∀ (f : Nat) (l : List Nat), l.length ≤ f →
    (readChunksAux f l).flatten = l := by
  intro f
  induction f with
  | zero =>
    intro l h
    have : l = [] := List.eq_nil_of_length_eq_zero (by omega)
    subst this
    rfl
  | succ f ih =>
    intro l h
    cases l with
    | nil => rfl
    | cons b t =>
      have hb : bufSize = 65536 := rfl
      have hlen : ((b :: t).drop bufSize).length ≤ f := by
        simp at h ⊢
        omega
      simp only [readChunksAux, List.flatten_cons]
      rw [ih ((b :: t).drop bufSize) hlen]
      exact List.take_append_drop bufSize (b :: t)

theorem readChunks_flatten (l : List Nat) : (readChunks l).flatten = l :=
  readChunksAux_flatten l.length l le_rfl

theorem zipWriteBytes_entries (b : List Nat) (z : ZipState) :
    (zipWriteBytes b z).entries = z.entries ∧ (zipWriteBytes b z).finished = z.finished := by
  unfold zipWriteBytes
  cases h : z.cur with
  | none => exact ⟨rfl, rfl⟩
  | some e =>
    obtain ⟨n, d⟩ := e
    exact ⟨rfl, rfl⟩

theorem zipWriteBytes_cur (b : List Nat) (z : ZipState) (n : List Char) (d : List Nat)
    (h : z.cur = some (n, d)) : (zipWriteBytes b z).cur = some (n, d ++ b) := by
  unfold zipWriteBytes
  rw [h]

theorem writeChunks_some {env : CollectEnv} :
    ∀ (cs : List (List Nat)) (z z' : ZipState) (n : List Char) (d : List Nat),
      writeChunks env cs z = some z' → z.cur = some (n, d) →
      z'.entries = z.entries ∧ z'.finished = z.finished ∧
      z'.cur = some (n, d ++ cs.flatten) := by
  intro cs
  induction cs with
  | nil =>
    intro z z' n d h hc
    simp [writeChunks] at h
    subst h
    simp [hc]
  | cons c cs ih =>
    intro z z' n d h hc
    unfold writeChunks at h
    split_ifs at h with hw
    obtain ⟨he, hf, hcur⟩ :=
      ih (zipWriteBytes c z) z' n (d ++ c) h (zipWriteBytes_cur c z n d hc)
    refine ⟨?_, ?_, ?_⟩
    · rw [he, (zipWriteBytes_entries c z).1]
    · rw [hf, (zipWriteBytes_entries c z).2]
    · rw [hcur]
      simp [List.flatten_cons, List.append_assoc]

theorem collectEntries_some {env : CollectEnv} :
    ∀ (dir : List DirEntry) (z z' : ZipState), z.cur = none →
      collectEntries env dir z = some z' →
      z'.entries = z.entries ++ (dir.filter keepEntry).map (fun e => (e.name, e.content)) ∧
      z'.cur = none ∧ z'.finished = z.finished := by
  intro dir
  induction dir with
  | nil =>
    intro z z' hc h
    simp [collectEntries] at h
    subst h
    simp [hc]
  | cons e rest ih =>
    intro z z' hc h
    unfold collectEntries at h
    by_cases hskip : (startsWithPat temporaryPat e.name || !e.isRegular) = true
    · rw [if_pos hskip] at h
      obtain ⟨h1, h2, h3⟩ := ih z z' hc h
      have hk : keepEntry e = false := by
        cases hsw : startsWithPat temporaryPat e.name <;>
          cases hrg : e.isRegular <;> simp_all [keepEntry]
      refine ⟨?_, h2, h3⟩
      rw [h1]
      simp [List.filter_cons, hk]
    · rw [if_neg hskip] at h
      split_ifs at h with hs ho hr hf
      · cases hw : writeChunks env (readChunks e.content) (zipStartEntry e.name z) <;>
          rw [hw] at h <;> simp at h
      · cases hw : writeChunks env (readChunks e.content) (zipStartEntry e.name z) with
        | none => rw [hw] at h; simp at h
        | some z1 =>
          rw [hw] at h
          have hrec : collectEntries env rest (zipFinishEntry z1) = some z' := h
          have hcur0 : (zipStartEntry e.name z).cur = some (e.name, []) := rfl
          obtain ⟨he1, hf1, hc1⟩ := writeChunks_some (readChunks e.content) _ z1 _ _ hw hcur0
          rw [List.nil_append, readChunks_flatten] at hc1
          have hent1 : z1.entries = z.entries := by
            rw [he1]; rfl
          have hfin1 : z1.finished = z.finished := by
            rw [hf1]; rfl
          have hz2cur : (zipFinishEntry z1).cur = none := by
            unfold zipFinishEntry
            rw [hc1]
          have hz2ent : (zipFinishEntry z1).entries = z.entries ++ [(e.name, e.content)] := by
            unfold zipFinishEntry
            rw [hc1, hent1]
          have hz2fin : (zipFinishEntry z1).finished = z.finished := by
            unfold zipFinishEntry
            rw [hc1]
            exact hfin1
          obtain ⟨h1, h2, h3⟩ := ih (zipFinishEntry z1) z' hz2cur hrec
          have hk : keepEntry e = true := by
            cases hsw : startsWithPat temporaryPat e.name <;>
              cases hrg : e.isRegular <;> simp_all [keepEntry]
          refine ⟨?_, h2, by rw [h3, hz2fin]⟩
          rw [h1, hz2ent]
          simp [List.filter_cons, hk, List.append_assoc]

theorem collectRecordingData_archive {env : CollectEnv} {dir : List DirEntry} {z : ZipState}
    (h : collectRecordingData env dir = some z) :
    z.entries = (dir.filter keepEntry).map (fun e => (e.name, e.content)) := by
  unfold collectRecordingData at h
  split_ifs at h with h1 h3
  · cases h2 : collectEntries env dir zipInit <;> rw [h2] at h <;> simp at h
  · cases h2 : collectEntries env dir zipInit with
    | none => rw [h2] at h; simp at h
    | some z0 =>
      rw [h2] at h
      have h4 : some (zipFinish z0) = some z := h
      simp only [Option.some.injEq] at h4
      subst h4
      obtain ⟨he, -, -⟩ := collectEntries_some dir zipInit z0 rfl h2
      simpa [zipFinish, zipInit] using he

theorem filter_keep_singleton :
    ∀ (dir : List DirEntry) (e : DirEntry),
      (dir.map DirEntry.name).Nodup → e ∈ dir → keepEntry e = true →
      ((dir.filter keepEntry).map (fun d => (d.name, d.content))).filter
          (fun p => p.1 == e.name) = [(e.name, e.content)] := by
  intro dir
  induction dir with
  | nil =>
    intro e _ he
    simp at he
  | cons d rest ih =>
    intro e hnd he hk
    have hnd' : d.name ∉ rest.map DirEntry.name ∧ (rest.map DirEntry.name).Nodup := by
      rw [List.map_cons, List.nodup_cons] at hnd
      exact hnd
    rcases List.mem_cons.mp he with rfl | he'
    · rw [List.filter_cons_of_pos (by simpa using hk)]
      simp only [List.map_cons, List.filter_cons]
      rw [if_pos (by simp)]
      have hrest : ((rest.filter keepEntry).map (fun d => (d.name, d.content))).filter
          (fun p => p.1 == e.name) = [] := by
        rw [List.filter_eq_nil_iff]
        intro p hp
        simp only [List.mem_map, List.mem_filter] at hp
        obtain ⟨r, ⟨hr, -⟩, rfl⟩ := hp
        have : r.name ≠ e.name := fun hh =>
          hnd'.1 (hh ▸ List.mem_map_of_mem DirEntry.name hr)
        simpa using this
      rw [hrest]
    · have hne : d.name ≠ e.name := fun hh =>
        hnd'.1 (hh ▸ List.mem_map_of_mem DirEntry.name he')
      have htail := ih e hnd'.2 he' hk
      cases hkd : keepEntry d with
      | false =>
        rw [List.filter_cons_of_neg (by simp [hkd])]
        exact htail
      | true =>
        rw [List.filter_cons_of_pos (by simp [hkd])]
        simp only [List.map_cons, List.filter_cons]
        rw [if_neg (by simpa using hne)]
        exact htail

/-- Claim C1: for every data directory state for which inner-mode
collection succeeds, every regular file whose name does not start with the
temporary prefix appears as exactly one entry of the output archive, named
after the file and with byte-identical contents. -/
theorem c1_round_trip (env : CollectEnv) (dir : List DirEntry) (z : ZipState) (e : DirEntry)
    (hz : collectRecordingData env dir = some z)
    (hnodup : (dir.map DirEntry.name).Nodup)
    (he : e ∈ dir) (hreg : e.isRegular = true)
    (htmp : startsWithPat temporaryPat e.name = false) :
    z.entries.filter (fun p => p.1 == e.name) = [(e.name, e.content)] := by
  rw [collectRecordingData_archive hz]
  exact filter_keep_singleton dir e hnodup he (by simp [keepEntry, htmp, hreg])

theorem c1_witness :
    collectRecordingData demoAllOkEnv demoDir = some demoZip ∧
    (demoDir.map DirEntry.name).Nodup ∧ demoPerf ∈ demoDir ∧
    demoPerf.isRegular = true ∧
    startsWithPat temporaryPat demoPerf.name = false ∧
    demoZip.entries.filter (fun p => p.1 == demoPerf.name) =
      [(demoPerf.name, demoPerf.content)] :=
  ⟨by decide, by decide, by decide, by decide, by decide,
   c1_round_trip demoAllOkEnv demoDir demoZip demoPerf (by decide) (by decide) (by decide)
     (by decide) (by decide)⟩

/-- Claim C4: every entry of a successfully produced archive has a name
that does not start with the temporary prefix `TemporaryFile-`, and
originates from a regular directory entry; hence a temporary-named entry is
never included regardless of content or size, and a non-regular entry is
never included. -/
theorem c4_filtering (env : CollectEnv) (dir : List DirEntry) (z : ZipState)
    (hz : collectRecordingData env dir = some z) :
    ∀ p ∈ z.entries, startsWithPat temporaryPat p.1 = false ∧
      ∃ e, e ∈ dir ∧ e.isRegular = true ∧ e.name = p.1 ∧ e.content = p.2 := by
  rw [collectRecordingData_archive hz]
  intro p hp
  simp only [List.mem_map, List.mem_filter] at hp
  obtain ⟨e, ⟨he, hkeep⟩, rfl⟩ := hp
  have hk : startsWithPat temporaryPat e.name = false ∧ e.isRegular = true := by
    cases hsw : startsWithPat temporaryPat e.name <;>
      cases hrg : e.isRegular <;> simp_all [keepEntry]
  exact ⟨hk.1, e, he, hk.2, rfl, rfl⟩

theorem c4_witness :
    collectRecordingData demoAllOkEnv demoDir = some demoZip ∧
    ∀ p ∈ demoZip.entries, startsWithPat temporaryPat p.1 = false ∧
      ∃ e, e ∈ demoDir ∧ e.isRegular = true ∧ e.name = p.1 ∧ e.content = p.2 :=
  ⟨by decide, c4_filtering demoAllOkEnv demoDir demoZip (by decide)⟩

end Simpleperf
